import Mathlib

/-! Verification of the flown-base firmware core: a shallow embedding of the
effect engine, the debounced input monitors, the mode controller and the
render pipeline, with theorems checking the specification's statements
against the embedded code. Times are modelled in microseconds as naturals;
`f32` color arithmetic is modelled over the reals (for the sine-pulse
analysis) and over the rationals (for the executable render encoding). -/

/-- Semantic input events (`Event`, src/event.rs). -/
inductive Event where
  | ButtonPress
  | ButtonHold
  | ButtonRelease
  | ChargerPluggedIn
  | ChargerUnplugged
deriving DecidableEq, Repr

/-- Display mode of an effect (`DisplayMode`, src/effect/mod.rs). -/
inductive DisplayMode where
  | Blend
  | Opaque
deriving DecidableEq, Repr

/-- Lifecycle event returned by `Effect::update` (`EffectEvent`,
src/effect/mod.rs); `replace` carries the effect substituting for the
current one. -/
inductive EffectEvent (α : Type) where
  | replace (e : α)
  | remove
deriving DecidableEq, Repr

/-- The `Effect` trait interface (src/effect/mod.rs): an effect value of
type `α` exposes a display mode, an `update` taking the elapsed time (the
mutated effect is the first component, the optional lifecycle event the
second) and an `apply` folding the effect into a pixel buffer of type `β`. -/
structure EffectModel (α β : Type) where
  displayMode : α → DisplayMode
  update : α → Nat → α × Option (EffectEvent α)
  apply : α → β → β

/-- First loop of `<Vec<Box<dyn Effect>> as Effect>::update`
(src/effect/mod.rs lines 79-95): every member is updated with the same
elapsed time; a member signalling `Replace` is substituted in place, and the
Bool marks the members whose index the source pushes onto `removals`. -/
def seqUpdatePass (m : EffectModel α β) (elapsed : Nat) (l : List α) :
    List (α × Bool) :=
  l.map fun e =>
    match m.update e elapsed with
    | (_, some (EffectEvent.replace n)) => (n, false)
    | (e1, some EffectEvent.remove) => (e1, true)
    | (e1, none) => (e1, false)

/-- `<Vec<Box<dyn Effect>> as Effect>::update` (src/effect/mod.rs lines
79-95): run the member updates, then remove the collected indices back to
front (equivalently, drop the marked members, keeping the rest in order);
the sequence itself reports no lifecycle event. -/
def seqUpdate (m : EffectModel α β) (elapsed : Nat) (l : List α) :
    List α × Option (EffectEvent (List α)) :=
  (((seqUpdatePass m elapsed l).filter fun p => !p.2).map Prod.fst, none)

/-- `Iterator::position`: index of the first element satisfying the
predicate (used by the source as `iter().rev().position(..)`). -/
def position (p : α → Bool) : List α → Option Nat
  | [] => none
  | a :: l => if p a then some 0 else (position p l).map (· + 1)

/-- `<Vec<Box<dyn Effect>> as Effect>::apply` (src/effect/mod.rs lines
97-115): nothing happens on an empty sequence; otherwise the members from
the topmost `Opaque` one (default: the bottom) up to the top are applied to
the buffer in order. -/
def seqApply (m : EffectModel α β) (l : List α) (buffer : β) : β :=
  if l.isEmpty then buffer
  else
    let last := l.length - 1
    let first := last -
      ((position (fun e => m.displayMode e == DisplayMode.Opaque) l.reverse).getD last)
    (l.drop first).foldl (fun b e => m.apply e b) buffer

/-- Per-member outcome of a sequence update, as a single pass: `Replace`
substitutes, `Remove` deletes, otherwise the updated member is kept. -/
def seqUpdateSpec (m : EffectModel α β) (elapsed : Nat) (l : List α) : List α :=
  l.filterMap fun e =>
    match m.update e elapsed with
    | (_, some (EffectEvent.replace n)) => some n
    | (_, some EffectEvent.remove) => none
    | (e1, none) => some e1

/-- Concrete effect model used to witness the sequence theorems: an effect
is a display mode paired with a tag, `apply` appends the tag to the buffer. -/
def tagModel : EffectModel (DisplayMode × Nat) (List Nat) where
  displayMode := Prod.fst
  update := fun e _ => (e, none)
  apply := fun e b => b ++ [e.2]

theorem position_eq_none (p : α → Bool) (l : List α) (h : ∀ e ∈ l, p e = false) :
    position p l = none := by
  induction l with
  | nil => rfl
  | cons a l ih =>
    simp only [position, h a (List.mem_cons_self a l), Bool.false_eq_true,
      if_false, ih fun e he => h e (List.mem_cons_of_mem a he)]
    rfl

theorem position_append_cons (p : α → Bool) (l₁ : List α) (o : α) (l₂ : List α)
    (h₁ : ∀ e ∈ l₁, p e = false) (ho : p o = true) :
    position p (l₁ ++ o :: l₂) = some l₁.length := by
  induction l₁ with
  | nil => simp [position, ho]
  | cons a l ih =>
    have hih := ih fun e he => h₁ e (List.mem_cons_of_mem a he)
    simp [position, h₁ a (List.mem_cons_self a l), hih]

theorem seqUpdate_eq_spec (m : EffectModel α β) (elapsed : Nat) (l : List α) :
    (seqUpdate m elapsed l).1 = seqUpdateSpec m elapsed l := by
  induction l with
  | nil => rfl
  | cons e rest ih =>
    simp only [seqUpdate, seqUpdatePass, List.map_cons, seqUpdateSpec,
      List.filterMap_cons] at *
    rcases h : m.update e elapsed with ⟨e1, ev⟩
    rcases ev with ⟨n⟩ | _ | _ <;> simp [h, List.filter_cons, ih]

/-- C5: for every effect sequence, `update` applies `update` to every member
with the given elapsed time; a member returning `Replace(new)` is substituted
in place by `new`, a member returning `Remove` is removed, and the relative
order of the remaining members is preserved: the result is exactly the
order-preserving single-pass `seqUpdateSpec`. -/
theorem effect_seq_update_members (m : EffectModel α β) (elapsed : Nat)
    (l : List α) :
    (seqUpdate m elapsed l).1 = seqUpdateSpec m elapsed l := by
  exact seqUpdate_eq_spec m elapsed l

/-- C10: `update` on an effect sequence never reports a lifecycle event of
its own — it returns `none` for every sequence, the empty one included
(and updating the empty sequence leaves it empty). -/
theorem effect_seq_update_returns_none (m : EffectModel α β) (elapsed : Nat)
    (l : List α) :
    (seqUpdate m elapsed l).2 = none
      ∧ (seqUpdate m elapsed ([] : List α)).1 = [] := by
  exact ⟨rfl, rfl⟩

/-- C3: applying a non-empty effect sequence renders exactly the suffix from
the topmost `Opaque` member up (members strictly below it are not applied),
and applies every member when none is `Opaque`. -/
theorem effect_seq_apply_opaque_culling (m : EffectModel α β) :
    (∀ (below above : List α) (o : α) (buffer : β),
        m.displayMode o = DisplayMode.Opaque →
        (∀ e ∈ above, m.displayMode e ≠ DisplayMode.Opaque) →
        seqApply m (below ++ o :: above) buffer
          = (o :: above).foldl (fun b e => m.apply e b) buffer)
    ∧ (∀ (l : List α) (buffer : β),
        (∀ e ∈ l, m.displayMode e ≠ DisplayMode.Opaque) →
        seqApply m l buffer = l.foldl (fun b e => m.apply e b) buffer) := by
  constructor
  · intro below above o buffer ho hab
    have hpos : position (fun e => m.displayMode e == DisplayMode.Opaque)
        ((below ++ o :: above).reverse) = some above.length := by
      have := position_append_cons
        (fun e => m.displayMode e == DisplayMode.Opaque)
        above.reverse o below.reverse
        (fun e he => by
          simp only [beq_eq_false_iff_ne, ne_eq]
          exact hab e (List.mem_reverse.mp he))
        (by simp [ho])
      simpa using this
    simp only [seqApply, List.isEmpty_eq_true, List.append_eq_nil,
      List.isEmpty_iff, hpos, Option.getD_some, List.length_append,
      List.length_cons]
    rw [if_neg (by simp)]
    have hlast : below.length + (above.length + 1) - 1 = below.length + above.length := by
      omega
    have hfirst : below.length + (above.length + 1) - 1 - above.length = below.length := by
      omega
    rw [hfirst]
    rw [List.drop_left]
  · intro l buffer hl
    cases l with
    | nil => rfl
    | cons a rest =>
      have hpos : position (fun e => m.displayMode e == DisplayMode.Opaque)
          ((a :: rest).reverse) = none := by
        refine position_eq_none _ _ fun e he => ?_
        simp only [beq_eq_false_iff_ne, ne_eq]
        exact hl e (List.mem_reverse.mp he)
      simp only [seqApply, hpos, Option.getD_none]
      rw [if_neg (by simp)]
      simp

/-- Witness for C3: on the bottom-to-top stack
`[Opaque 0, Blend 1, Opaque 2, Blend 3]` only the members tagged 2 and 3 are
applied, in that order. -/
theorem effect_seq_apply_opaque_culling_witness :
    seqApply tagModel
        [(DisplayMode.Opaque, 0), (DisplayMode.Blend, 1),
         (DisplayMode.Opaque, 2), (DisplayMode.Blend, 3)] [] = [2, 3] := by
  have h := (effect_seq_apply_opaque_culling tagModel).1
    [(DisplayMode.Opaque, 0), (DisplayMode.Blend, 1)] [(DisplayMode.Blend, 3)]
    (DisplayMode.Opaque, 2) [] rfl (by decide)
  simpa using h

/-- Fade direction (`FadeDirection`, src/effect/fade_transition.rs). -/
inductive FadeDirection where
  | In
  | Out
deriving DecidableEq, Repr

/-- Fade easing curve (`FadeCurve`, src/effect/fade_transition.rs). -/
inductive FadeCurve where
  | Linear
  | EaseIn
  | EaseOut
  | Smoothstep
deriving DecidableEq, Repr

/-- `FadeTransitionEffect` (src/effect/fade_transition.rs): the wrapped inner
effect is abstract of type `α` (the source stores it with a scratch buffer;
the buffer plays no role in `update`). Times are in microseconds. -/
structure FadeTransitionEffect (α : Type) where
  start : Nat
  duration : Nat
  fade_curve : FadeCurve
  fade_direction : FadeDirection
  wrapped : Option α
deriving DecidableEq, Repr

/-- Tail of `FadeTransitionEffect::update` (src/effect/fade_transition.rs
lines 93-103): once the inner update has been forwarded, check the deadline
`self.start.elapsed() >= self.duration`; at or past it, take the wrapped
effect and report `Replace` (direction In, inner present) or `Remove`. -/
def FadeTransitionEffect.updateDeadline (f : FadeTransitionEffect α)
    (now : Nat) : FadeTransitionEffect α × Option (EffectEvent α) :=
  if f.duration ≤ now - f.start then
    ({ f with wrapped := none },
      some (match f.wrapped with
        | some e =>
          match f.fade_direction with
          | FadeDirection.In => EffectEvent.replace e
          | FadeDirection.Out => EffectEvent.remove
        | none => EffectEvent.remove))
  else (f, none)

/-- `FadeTransitionEffect::update` (src/effect/fade_transition.rs lines
81-106): forward `update` to the wrapped inner effect first — `Replace`
substitutes the inner effect in place, `Remove` drops it and returns
`Remove` at once — then evaluate the deadline. `now` is the current instant
(`Instant::now()`), `elapsed` the argument forwarded to the inner effect. -/
def FadeTransitionEffect.update (m : EffectModel α β)
    (f : FadeTransitionEffect α) (now elapsed : Nat) :
    FadeTransitionEffect α × Option (EffectEvent α) :=
  match f.wrapped with
  | some w =>
    match m.update w elapsed with
    | (_, some (EffectEvent.replace n)) =>
      FadeTransitionEffect.updateDeadline { f with wrapped := some n } now
    | (_, some EffectEvent.remove) =>
      ({ f with wrapped := none }, some EffectEvent.remove)
    | (w1, none) =>
      FadeTransitionEffect.updateDeadline { f with wrapped := some w1 } now
  | none => FadeTransitionEffect.updateDeadline f now

/-- Inner effect model whose update always signals `Remove` (models a
wrapped effect that has just finished, e.g. an inner fade-out bundle). -/
def removeModel : EffectModel Unit Unit where
  displayMode := fun _ => DisplayMode.Blend
  update := fun _ _ => ((), some EffectEvent.remove)
  apply := fun _ b => b

/-- Inner effect model whose update never signals anything. -/
def quietModel : EffectModel Unit Unit where
  displayMode := fun _ => DisplayMode.Blend
  update := fun _ _ => ((), none)
  apply := fun _ b => b

/-- A fade-out of 1500 ms started at instant 0, wrapping an inner effect. -/
def fadeOutSample : FadeTransitionEffect Unit :=
  { start := 0, duration := 1500000, fade_curve := FadeCurve.Linear,
    fade_direction := FadeDirection.Out, wrapped := some () }

theorem updateDeadline_out_event (f : FadeTransitionEffect α) (now : Nat)
    (hdir : f.fade_direction = FadeDirection.Out) :
    (f.updateDeadline now).2
      = if f.duration ≤ now - f.start then some EffectEvent.remove else none := by
  unfold FadeTransitionEffect.updateDeadline
  split
  · cases f.wrapped <;> simp [hdir]
  · rfl

/-- C2 counterexample: with fade direction `Out`, when the wrapped inner
effect's update signals `Remove` the fade itself returns `Remove` at once,
here at instant 10 µs, far before its 1500 ms deadline — refuting "never
before its configured duration". -/
theorem fade_out_early_remove_counterexample :
    (FadeTransitionEffect.update removeModel fadeOutSample 10 10).2
        = some EffectEvent.remove
      ∧ 10 - fadeOutSample.start < fadeOutSample.duration := by
  exact ⟨rfl, by norm_num [fadeOutSample]⟩

/-- C2 amended: a fade-out whose inner effect does not signal `Remove`
returns `Remove` exactly when its elapsed time has reached its configured
duration; but when the inner update signals `Remove`, the fade drops the
inner effect and itself returns `Remove` immediately, deadline or not. -/
theorem fade_out_remove_at_deadline (m : EffectModel α β)
    (f : FadeTransitionEffect α) (now elapsed : Nat)
    (hdir : f.fade_direction = FadeDirection.Out) :
    ((∀ w, f.wrapped = some w →
          (m.update w elapsed).2 ≠ some EffectEvent.remove) →
        ((FadeTransitionEffect.update m f now elapsed).2
            = some EffectEvent.remove
          ↔ f.duration ≤ now - f.start))
      ∧ (∀ w, f.wrapped = some w →
          (m.update w elapsed).2 = some EffectEvent.remove →
          (FadeTransitionEffect.update m f now elapsed).2
              = some EffectEvent.remove
            ∧ (FadeTransitionEffect.update m f now elapsed).1.wrapped
              = none) := by
  constructor
  · intro hinner
    cases hw : f.wrapped with
    | none =>
      simp only [FadeTransitionEffect.update, hw]
      rw [updateDeadline_out_event f now hdir]
      split <;> simp_all
    | some w =>
      have hne := hinner w hw
      rcases hu : m.update w elapsed with ⟨w1, ev⟩
      rw [hu] at hne
      rcases ev with _ | ⟨n⟩ | _
      · simp only [FadeTransitionEffect.update, hw, hu]
        rw [updateDeadline_out_event _ now (by simpa using hdir)]
        split <;> simp_all
      · simp only [FadeTransitionEffect.update, hw, hu]
        rw [updateDeadline_out_event _ now (by simpa using hdir)]
        split <;> simp_all
      · simp at hne
  · intro w hw hrem
    unfold FadeTransitionEffect.update
    rw [hw]
    rcases hu : m.update w elapsed with ⟨w1, ev⟩
    rw [hu] at hrem
    rcases ev with ⟨n⟩ | _ | _ <;> simp_all

/-- Witness for C2's amended theorem: a fade-out wrapping a quiet inner
effect, evaluated at instant 2000 ms, signals `Remove` exactly because its
1500 ms deadline has passed. -/
theorem fade_out_remove_at_deadline_witness :
    (FadeTransitionEffect.update quietModel fadeOutSample 2000000 5).2
        = some EffectEvent.remove
      ↔ fadeOutSample.duration ≤ 2000000 - fadeOutSample.start := by
  exact (fade_out_remove_at_deadline quietModel fadeOutSample 2000000 5 rfl).1
    (fun w hw => by simp [quietModel])

/-- Shared/local button state (`ButtonState`, src/event.rs); `Held` carries
the hold start instant in microseconds. -/
inductive ButtonState where
  | Held (start : Nat)
  | NotHeld
deriving DecidableEq, Repr

/-- `ButtonState::is_held` (src/event.rs). -/
def ButtonState.is_held : ButtonState → Bool
  | ButtonState.Held _ => true
  | ButtonState.NotHeld => false

/-- GPIO level awaited by `ButtonState::wait` (src/event.rs lines 101-134):
a held button waits for the line to go high (release edge), an unheld one
for it to go low (press edge). -/
inductive GpioLevel where
  | HighLevel
  | LowLevel
deriving DecidableEq, Repr

/-- The level `ButtonState::wait` arms `input.wait_for` with. -/
def waitLevel : ButtonState → GpioLevel
  | ButtonState.Held _ => GpioLevel.HighLevel
  | ButtonState.NotHeld => GpioLevel.LowLevel

/-- `BUTTON_HOLD_TIME` (src/event.rs): 1500 ms, in microseconds. -/
def BUTTON_HOLD_TIME : Nat := 1500000

/-- `BUTTON_DEBOUNCE_TIME` (src/event.rs): 1 ms, in microseconds. -/
def BUTTON_DEBOUNCE_TIME : Nat := 1000

/-- State owned by the `button_input` task (src/event.rs lines 37-99): the
local `button_state`, the contents of the shared `state.button_state` mutex,
and `last_button_event`. -/
structure ButtonMonitor where
  button_state : ButtonState
  shared_state : ButtonState
  last_button_event : Nat
deriving DecidableEq, Repr

/-- One completion of the `select3` race in `button_input`: an edge wait
completing at instant `t`, or the hold timer firing at instant `t`. -/
inductive ButtonOcc where
  | edge (t : Nat)
  | holdFire (t : Nat)
deriving DecidableEq, Repr

def ButtonOcc.isEdge : ButtonOcc → Bool
  | ButtonOcc.edge _ => true
  | ButtonOcc.holdFire _ => false

def ButtonOcc.time : ButtonOcc → Nat
  | ButtonOcc.edge t => t
  | ButtonOcc.holdFire t => t

/-- One iteration of the `button_input` loop (src/event.rs lines 59-98),
given which branch of the `select3` race completed; returns the new monitor
state and the events published to `state.events`. An edge inside the
debounce window hits `continue`: nothing at all is updated. An accepted
edge flips the state (a fresh `Held` records the accept instant), publishes
`ButtonPress`/`ButtonRelease` and stores the new state in the shared mutex.
A hold-timer fire rearms the local state as `Held(Instant::now())` and
publishes `ButtonHold`, leaving the shared state untouched. -/
def buttonStep (s : ButtonMonitor) (o : ButtonOcc) :
    ButtonMonitor × List Event :=
  match o with
  | ButtonOcc.edge t =>
    if t - s.last_button_event < BUTTON_DEBOUNCE_TIME then (s, [])
    else
      match s.button_state with
      | ButtonState.Held _ =>
        ({ button_state := ButtonState.NotHeld,
           shared_state := ButtonState.NotHeld,
           last_button_event := t }, [Event.ButtonRelease])
      | ButtonState.NotHeld =>
        ({ button_state := ButtonState.Held t,
           shared_state := ButtonState.Held t,
           last_button_event := t }, [Event.ButtonPress])
  | ButtonOcc.holdFire t =>
    ({ s with button_state := ButtonState.Held t }, [Event.ButtonHold])

/-- When a race completion is possible: an edge can complete at any instant,
while the hold timer (`ButtonState::hold_timer`, src/event.rs lines 136-158)
only completes when the local state is `Held(start)`, exactly at
`start + BUTTON_HOLD_TIME`. -/
def validOcc (s : ButtonMonitor) (o : ButtonOcc) : Bool :=
  match o with
  | ButtonOcc.edge _ => true
  | ButtonOcc.holdFire t =>
    match s.button_state with
    | ButtonState.Held start => t == start + BUTTON_HOLD_TIME
    | ButtonState.NotHeld => false

/-- Iterated `buttonStep` over a trace of race completions, collecting the
published events in order. -/
def buttonRun (s : ButtonMonitor) : List ButtonOcc → ButtonMonitor × List Event
  | [] => (s, [])
  | o :: rest =>
    ((buttonRun (buttonStep s o).1 rest).1,
      (buttonStep s o).2 ++ (buttonRun (buttonStep s o).1 rest).2)

/-- A trace each of whose completions is possible in the state it meets. -/
def validRun (s : ButtonMonitor) : List ButtonOcc → Bool
  | [] => true
  | o :: rest => validOcc s o && validRun (buttonStep s o).1 rest

/-- A button held from instant 0, both locally and in the shared state. -/
def heldInit : ButtonMonitor :=
  { button_state := ButtonState.Held 0, shared_state := ButtonState.Held 0,
    last_button_event := 0 }

/-- Two consecutive hold-timer firings with no edge in between. -/
def doubleHoldTrace : List ButtonOcc :=
  [ButtonOcc.holdFire 1500000, ButtonOcc.holdFire 3000000]

/-- A button monitor that most recently accepted a transition at instant
5000 µs and currently observes the button as not held. -/
def notHeldAt5000 : ButtonMonitor :=
  { button_state := ButtonState.NotHeld, shared_state := ButtonState.NotHeld,
    last_button_event := 5000 }

/-- C1 counterexample: from a hold started at instant 0, the hold timer
fires at 1500 ms and again at 3000 ms — a valid trace with no edge — and
the monitor publishes `ButtonHold` twice before any release, refuting
"exactly one `ButtonHold` until an edge changes the state". -/
theorem button_hold_double_counterexample :
    validRun heldInit doubleHoldTrace = true
      ∧ (buttonRun heldInit doubleHoldTrace).2
          = [Event.ButtonHold, Event.ButtonHold]
      ∧ doubleHoldTrace.all (fun o => !o.isEdge) = true := by
  decide

/-- C1 amended: while the button stays held with no edge, the hold deadline
fires at `start + 1500 ms` and on each firing the monitor publishes exactly
one `ButtonHold` and rearms the timer from the firing instant, so the k-th
`ButtonHold` of a sustained hold comes at `start + k·1500 ms` (one per full
1500 ms of hold; in particular exactly one before release when the hold
lasts less than 3000 ms); the shared button state is left untouched. -/
theorem button_hold_rearms (s : ButtonMonitor) (s0 : Nat)
    (trace : List ButtonOcc) (hs : s.button_state = ButtonState.Held s0)
    (hvalid : validRun s trace = true)
    (hnoedge : trace.all (fun o => !o.isEdge) = true) :
    (buttonRun s trace).2 = List.replicate trace.length Event.ButtonHold
      ∧ (∀ i, ∀ h : i < trace.length,
          (trace.get ⟨i, h⟩).time = s0 + (i + 1) * BUTTON_HOLD_TIME)
      ∧ (buttonRun s trace).1.shared_state = s.shared_state := by
  induction trace generalizing s s0 with
  | nil =>
    refine ⟨rfl, ?_, rfl⟩
    intro i h
    simp at h
  | cons o rest ih =>
    cases o with
    | edge t => simp [ButtonOcc.isEdge] at hnoedge
    | holdFire t =>
      simp only [validRun, validOcc, hs, Bool.and_eq_true, beq_iff_eq]
        at hvalid
      obtain ⟨ht, hrest⟩ := hvalid
      have hstep : buttonStep s (ButtonOcc.holdFire t)
          = ({ s with button_state := ButtonState.Held t },
             [Event.ButtonHold]) := rfl
      have hrest' : validRun { s with button_state := ButtonState.Held t } rest
          = true := hrest
      have hnoedge' : rest.all (fun o => !o.isEdge) = true := by
        simp only [List.all_cons, Bool.and_eq_true] at hnoedge
        exact hnoedge.2
      obtain ⟨hev, htimes, hshared⟩ :=
        ih { s with button_state := ButtonState.Held t } t rfl hrest' hnoedge'
      refine ⟨?_, ?_, ?_⟩
      · simp only [buttonRun, hstep, hev, List.length_cons]
        rfl
      · intro i h
        cases i with
        | zero => simpa [ButtonOcc.time] using ht
        | succ j =>
          have hj : j < rest.length := by simpa using h
          have := htimes j hj
          simp only [List.get] at this ⊢
          rw [this, ht, BUTTON_HOLD_TIME]
          ring
      · simp only [buttonRun, hstep] at *
        simpa using hshared

/-- Witness for C1's amended theorem: a single hold-timer firing at 1500 ms
from a hold started at 0 publishes exactly one `ButtonHold`, at
`0 + 1·BUTTON_HOLD_TIME`, without touching the shared state. -/
theorem button_hold_rearms_witness :
    (buttonRun heldInit [ButtonOcc.holdFire 1500000]).2
        = List.replicate 1 Event.ButtonHold
      ∧ (∀ i, ∀ h : i < [ButtonOcc.holdFire 1500000].length,
          ([ButtonOcc.holdFire 1500000].get ⟨i, h⟩).time
            = 0 + (i + 1) * BUTTON_HOLD_TIME)
      ∧ (buttonRun heldInit [ButtonOcc.holdFire 1500000]).1.shared_state
          = heldInit.shared_state := by
  exact button_hold_rearms heldInit 0 [ButtonOcc.holdFire 1500000] rfl
    (by decide) (by decide)

/-- C4 counterexample: a press edge at 5500 µs, 500 µs after the last
accepted transition, is rejected by the debounce window — no event, no
state change — but nothing internal is updated either: the monitor still
waits for the same low level (the press edge it just saw), refuting "the
monitor still updates its internal expectation of the next edge". -/
theorem button_debounce_no_update_counterexample :
    5500 - notHeldAt5000.last_button_event < BUTTON_DEBOUNCE_TIME
      ∧ buttonStep notHeldAt5000 (ButtonOcc.edge 5500) = (notHeldAt5000, [])
      ∧ waitLevel (buttonStep notHeldAt5000 (ButtonOcc.edge 5500)).1.button_state
          = GpioLevel.LowLevel
      ∧ waitLevel notHeldAt5000.button_state = GpioLevel.LowLevel := by
  decide

/-- C4 amended: an edge transition observed less than 1 ms after the last
accepted transition is discarded entirely — no event is published, the
shared `ButtonState` is not changed, and the monitor's internal state (the
awaited edge and the debounce reference instant included) is unchanged;
of two transitions closer together than the debounce window whose first is
accepted, only the first produces a state change and a published event. -/
theorem button_debounce_discards (s : ButtonMonitor) (t t1 t2 : Nat) :
    (t - s.last_button_event < BUTTON_DEBOUNCE_TIME →
        buttonStep s (ButtonOcc.edge t) = (s, []))
      ∧ (BUTTON_DEBOUNCE_TIME ≤ t1 - s.last_button_event →
          t2 - t1 < BUTTON_DEBOUNCE_TIME →
          buttonRun s [ButtonOcc.edge t1, ButtonOcc.edge t2]
              = ((buttonStep s (ButtonOcc.edge t1)).1,
                 (buttonStep s (ButtonOcc.edge t1)).2)
            ∧ (buttonStep s (ButtonOcc.edge t1)).2.length = 1) := by
  constructor
  · intro h
    simp [buttonStep, h]
  · intro h1 h2
    have hn1 : ¬ (t1 - s.last_button_event < BUTTON_DEBOUNCE_TIME) := by
      omega
    cases hb : s.button_state with
    | Held start => simp [buttonRun, buttonStep, hb, hn1, h2]
    | NotHeld => simp [buttonRun, buttonStep, hb, hn1, h2]

/-- Witness for C4's amended theorem: with the last accepted transition at
5000 µs, an edge at 5500 µs is a no-op, while edges at 7000 µs and 7500 µs
yield exactly the one event of the first edge. -/
theorem button_debounce_discards_witness :
    buttonStep notHeldAt5000 (ButtonOcc.edge 5500) = (notHeldAt5000, [])
      ∧ buttonRun notHeldAt5000 [ButtonOcc.edge 7000, ButtonOcc.edge 7500]
          = ((buttonStep notHeldAt5000 (ButtonOcc.edge 7000)).1,
             (buttonStep notHeldAt5000 (ButtonOcc.edge 7000)).2)
      ∧ (buttonStep notHeldAt5000 (ButtonOcc.edge 7000)).2.length = 1 := by
  refine ⟨(button_debounce_discards notHeldAt5000 5500 0 0).1 (by decide),
    ((button_debounce_discards notHeldAt5000 0 7000 7500).2 (by decide)
      (by decide)).1,
    ((button_debounce_discards notHeldAt5000 0 7000 7500).2 (by decide)
      (by decide)).2⟩

/-- Charger state (`ChargerState`, src/event.rs). -/
inductive ChargerState where
  | PluggedIn
  | Unplugged
deriving DecidableEq, Repr

/-- Power state (`PowerState`, src/power.rs). -/
inductive PowerState where
  | On
  | Off
deriving DecidableEq, Repr

/-- `impl Not for PowerState` (src/power.rs lines 16-25). -/
def PowerState.not : PowerState → PowerState
  | PowerState.On => PowerState.Off
  | PowerState.Off => PowerState.On

/-- Top-level mode (`Mode`, src/state.rs). -/
inductive Mode where
  | PreStartup
  | Startup
  | PreCharging
  | Charging
  | PreMain
  | Main
  | PrePairing
  | Pairing
  | Shutdown
deriving DecidableEq, Repr

/-- The shared device state as seen by the mode controller: mode, power,
input states and the effect stack (fields of `State`, src/state.rs, with
effects abstract of type `α`). -/
structure Sys (α : Type) where
  mode : Mode
  power : PowerState
  button_state : ButtonState
  charger_state : ChargerState
  effect_stack : List α
deriving DecidableEq, Repr

/-- The `Mode::Charging` arm of the controller loop (src/bin/main.rs lines
94-117), handling one received event: `ButtonHold` toggles the power state;
`ChargerUnplugged` while `On` drains the stack into a bundle wrapped by a
fade-out (built by `mkFadeOut`, abstracting `add_fade_out`) and moves to
`PreMain`; `ChargerUnplugged` while `Off` moves to `Shutdown`; every other
event is ignored. -/
def chargingStep (mkFadeOut : List α → α) (s : Sys α) (e : Event) : Sys α :=
  match e with
  | Event.ButtonHold => { s with power := PowerState.not s.power }
  | Event.ChargerUnplugged =>
    match s.power with
    | PowerState.On =>
      { s with effect_stack := [mkFadeOut s.effect_stack],
               mode := Mode.PreMain }
    | PowerState.Off => { s with mode := Mode.Shutdown }
  | _ => s

/-- C9: in Charging mode, a `ButtonHold` event toggles the shared power
state (On becomes Off and Off becomes On) and leaves the mode at Charging;
the effect stack and the button/charger states are untouched. -/
theorem charging_button_hold_toggles_power (mkFadeOut : List α → α)
    (s : Sys α) (h : s.mode = Mode.Charging) :
    (chargingStep mkFadeOut s Event.ButtonHold).mode = Mode.Charging
      ∧ (chargingStep mkFadeOut s Event.ButtonHold).power
          = PowerState.not s.power
      ∧ PowerState.not PowerState.On = PowerState.Off
      ∧ PowerState.not PowerState.Off = PowerState.On
      ∧ (chargingStep mkFadeOut s Event.ButtonHold).effect_stack
          = s.effect_stack
      ∧ (chargingStep mkFadeOut s Event.ButtonHold).button_state
          = s.button_state
      ∧ (chargingStep mkFadeOut s Event.ButtonHold).charger_state
          = s.charger_state := by
  refine ⟨?_, rfl, rfl, rfl, rfl, rfl, rfl⟩
  rw [show (chargingStep mkFadeOut s Event.ButtonHold).mode = s.mode from rfl]
  exact h

/-- A concrete charging-mode state used to witness C9. -/
def chargingSample : Sys Nat :=
  { mode := Mode.Charging, power := PowerState.On,
    button_state := ButtonState.NotHeld,
    charger_state := ChargerState.PluggedIn, effect_stack := [7] }

/-- Witness for C9: from a concrete Charging state powered On, `ButtonHold`
leaves the mode at Charging, flips the power to Off, and changes nothing
else. -/
theorem charging_button_hold_toggles_power_witness :
    (chargingStep (fun _ => 0) chargingSample Event.ButtonHold).mode
        = Mode.Charging
      ∧ (chargingStep (fun _ => 0) chargingSample Event.ButtonHold).power
          = PowerState.not chargingSample.power
      ∧ PowerState.not PowerState.On = PowerState.Off
      ∧ PowerState.not PowerState.Off = PowerState.On
      ∧ (chargingStep (fun _ => 0) chargingSample Event.ButtonHold).effect_stack
          = chargingSample.effect_stack
      ∧ (chargingStep (fun _ => 0) chargingSample Event.ButtonHold).button_state
          = chargingSample.button_state
      ∧ (chargingStep (fun _ => 0) chargingSample Event.ButtonHold).charger_state
          = chargingSample.charger_state := by
  exact charging_button_hold_toggles_power (fun _ => 0) chargingSample rfl

/-- The shutdown-mode debounce loop (src/bin/main.rs lines 187-191):
`while !matches!(state.events.receive().await, Event::ButtonRelease) {}`,
run over a stream of incoming events; `some rest` means the loop exited
with `rest` still unreceived, `none` that it consumed the whole stream
without exiting (the source blocks forever awaiting the next event). -/
def shutdownDebounceLoop : List Event → Option (List Event)
  | [] => none
  | e :: rest =>
    if e = Event.ButtonRelease then some rest else shutdownDebounceLoop rest

/-- The guarded debounce wait in Shutdown mode: the loop runs only when the
shared button state reports the button held. -/
def shutdownWait (bs : ButtonState) (events : List Event) :
    Option (List Event) :=
  if bs.is_held then shutdownDebounceLoop events else some events

theorem shutdownDebounceLoop_some_iff (events rest : List Event) :
    shutdownDebounceLoop events = some rest ↔
      ∃ pre, events = pre ++ Event.ButtonRelease :: rest ∧
        Event.ButtonRelease ∉ pre := by
  induction events with
  | nil => simp [shutdownDebounceLoop]
  | cons e es ih =>
    by_cases he : e = Event.ButtonRelease
    · subst he
      have hred : shutdownDebounceLoop (Event.ButtonRelease :: es) = some es := by
        simp [shutdownDebounceLoop]
      rw [hred, Option.some.injEq]
      constructor
      · rintro rfl
        exact ⟨[], rfl, by simp⟩
      · rintro ⟨pre, hpre, hnot⟩
        cases pre with
        | nil => simpa using hpre
        | cons a pre' =>
          simp only [List.cons_append, List.cons.injEq] at hpre
          exact absurd (by simp [← hpre.1]) hnot
    · simp only [shutdownDebounceLoop, if_neg he]
      rw [ih]
      constructor
      · rintro ⟨pre, rfl, hnot⟩
        refine ⟨e :: pre, rfl, ?_⟩
        simp only [List.mem_cons, not_or]
        exact ⟨fun h => he h.symm, hnot⟩
      · rintro ⟨pre, hpre, hnot⟩
        cases pre with
        | nil =>
          simp only [List.nil_append, List.cons.injEq] at hpre
          exact absurd hpre.1 he
        | cons a pre' =>
          simp only [List.cons_append, List.cons.injEq] at hpre
          refine ⟨pre', hpre.2, fun hmem => hnot ?_⟩
          exact List.mem_cons_of_mem a hmem

theorem shutdownDebounceLoop_none (events : List Event)
    (h : Event.ButtonRelease ∉ events) : shutdownDebounceLoop events = none := by
  induction events with
  | nil => rfl
  | cons e es ih =>
    have he : ¬ (e = Event.ButtonRelease) := fun hh =>
      h (hh ▸ List.mem_cons_self e es)
    simp only [shutdownDebounceLoop, if_neg he]
    exact ih fun hm => h (List.mem_cons_of_mem e hm)

/-- C8: in Shutdown mode with the shared button state held, the controller
keeps receiving and discarding events, exiting the debounce-wait loop
exactly on the first `ButtonRelease`: it exits leaving `rest` unconsumed
iff the stream is some release-free prefix, then `ButtonRelease`, then
`rest`; if no `ButtonRelease` ever arrives it never exits, no matter what
other events do. -/
theorem shutdown_blocks_until_release (bs : ButtonState)
    (events rest : List Event) :
    (bs.is_held = true →
        (shutdownWait bs events = some rest ↔
          ∃ pre, events = pre ++ Event.ButtonRelease :: rest
            ∧ Event.ButtonRelease ∉ pre))
      ∧ (bs.is_held = true → Event.ButtonRelease ∉ events →
          shutdownWait bs events = none) := by
  constructor
  · intro hh
    simp only [shutdownWait, hh, if_true]
    exact shutdownDebounceLoop_some_iff events rest
  · intro hh hnot
    simp only [shutdownWait, hh, if_true]
    exact shutdownDebounceLoop_none events hnot

/-- Event stream arriving while the Shutdown debounce loop runs. -/
def shutdownEventsSample : List Event :=
  [Event.ButtonPress, Event.ChargerPluggedIn, Event.ButtonHold,
   Event.ButtonRelease, Event.ButtonPress]

/-- Witness for C8: with the button held, three non-release events are
discarded and the loop exits exactly at the `ButtonRelease`, leaving the
trailing `ButtonPress` unconsumed; a release-free stream never exits. -/
theorem shutdown_blocks_until_release_witness :
    shutdownWait (ButtonState.Held 0) shutdownEventsSample
        = some [Event.ButtonPress]
      ∧ shutdownWait (ButtonState.Held 0)
          [Event.ButtonPress, Event.ButtonHold] = none := by
  constructor
  · exact ((shutdown_blocks_until_release (ButtonState.Held 0)
      shutdownEventsSample [Event.ButtonPress]).1 rfl).mpr
      ⟨[Event.ButtonPress, Event.ChargerPluggedIn, Event.ButtonHold],
        rfl, by decide⟩
  · exact (shutdown_blocks_until_release (ButtonState.Held 0)
      [Event.ButtonPress, Event.ButtonHold] []).2 rfl (by decide)

/-- `Rgb` (src/render/rgb.rs), its `f32` channels modelled over ℝ for the
sine-pulse analysis. -/
structure Rgb where
  r : ℝ
  g : ℝ
  b : ℝ

/-- `Rgb::BLACK` (src/render/rgb.rs). -/
noncomputable def Rgb.BLACK : Rgb := ⟨0, 0, 0⟩

/-- `Rgb::lerp` (src/render/rgb.rs lines 28-36): the factor is clamped to
[0, 1], then each channel is interpolated. -/
noncomputable def Rgb.lerp (p other : Rgb) (a : ℝ) : Rgb :=
  ⟨p.r * (1 - min (max a 0) 1) + other.r * min (max a 0) 1,
   p.g * (1 - min (max a 0) 1) + other.g * min (max a 0) 1,
   p.b * (1 - min (max a 0) 1) + other.b * min (max a 0) 1⟩

/-- The interpolation factor computed by `SinePulseEffect::apply`
(src/effect/sine_pulse.rs lines 85-86): `t = elapsed / period`,
`a = sin(2π t) · amplitude + offset`. -/
noncomputable def sinePulseFactor (amplitude offset elapsed period : ℝ) : ℝ :=
  Real.sin (2 * Real.pi * (elapsed / period)) * amplitude + offset

/-- The per-pixel loop of `SinePulseEffect::apply` (src/effect/sine_pulse.rs
lines 88-100): pixel i becomes `pixel.lerp(wrapped_color(i), a)`. -/
noncomputable def sinePulseApplyGo (a : ℝ) (innerAt : Nat → Rgb) :
    Nat → List Rgb → List Rgb
  | _, [] => []
  | i, p :: rest => Rgb.lerp p (innerAt i) a :: sinePulseApplyGo a innerAt (i + 1) rest

/-- `SinePulseEffect::apply` (src/effect/sine_pulse.rs lines 78-101) on the
caller's buffer, with the wrapped inner effect's rendered scratch buffer
passed in (`None` when no inner effect is wrapped; out of its range the
source would panic, the model yields black like the no-inner case). -/
noncomputable def SinePulseEffect.apply (amplitude offset elapsed period : ℝ)
    (wrapped : Option (List Rgb)) (buffer : List Rgb) : List Rgb :=
  sinePulseApplyGo (sinePulseFactor amplitude offset elapsed period)
    (fun i =>
      match wrapped with
      | some w => w.getD i Rgb.BLACK
      | none => Rgb.BLACK) 0 buffer

theorem sinePulseApplyGo_getD (a : ℝ) (innerAt : Nat → Rgb) (j i : Nat)
    (buffer : List Rgb) (h : i < buffer.length) :
    (sinePulseApplyGo a innerAt j buffer).getD i Rgb.BLACK
      = Rgb.lerp (buffer.getD i Rgb.BLACK) (innerAt (j + i)) a := by
  induction buffer generalizing j i with
  | nil => simp at h
  | cons p rest ih =>
    cases i with
    | zero => simp [sinePulseApplyGo]
    | succ n =>
      have hn : n < rest.length := by simpa using h
      have := ih (j + 1) n hn
      simpa [sinePulseApplyGo, Nat.add_assoc, Nat.add_comm 1 n] using this

/-- C6: with amplitude 0.075 and offset 0.85, the sine-pulse blend factor
`a = offset + amplitude·sin(2π·t/period)` stays within [0.775, 0.925] for
every elapsed time, equals 0.85 exactly at every half-period multiple, and
each pixel is blended as `pixel.lerp(inner, a)` with black standing in for
the inner color when no inner effect is wrapped. -/
theorem sine_pulse_factor_bounds (P : ℝ) (hP : P ≠ 0) :
    (∀ t : ℝ, (0.775 : ℝ) ≤ sinePulseFactor 0.075 0.85 t P
        ∧ sinePulseFactor 0.075 0.85 t P ≤ (0.925 : ℝ))
      ∧ (∀ k : ℕ, sinePulseFactor 0.075 0.85 ((k : ℝ) * (P / 2)) P
          = (0.85 : ℝ))
      ∧ (∀ (t : ℝ) (wrapped : Option (List Rgb)) (buffer : List Rgb)
          (i : Nat), i < buffer.length →
          (SinePulseEffect.apply 0.075 0.85 t P wrapped buffer).getD i Rgb.BLACK
            = Rgb.lerp (buffer.getD i Rgb.BLACK)
                (match wrapped with
                  | some w => w.getD i Rgb.BLACK
                  | none => Rgb.BLACK)
                (sinePulseFactor 0.075 0.85 t P)) := by
  refine ⟨?_, ?_, ?_⟩
  · intro t
    have h1 := Real.neg_one_le_sin (2 * Real.pi * (t / P))
    have h2 := Real.sin_le_one (2 * Real.pi * (t / P))
    unfold sinePulseFactor
    constructor <;> nlinarith
  · intro k
    unfold sinePulseFactor
    have harg : 2 * Real.pi * ((k : ℝ) * (P / 2) / P) = (k : ℝ) * Real.pi := by
      field_simp
      ring
    rw [harg, Real.sin_nat_mul_pi]
    norm_num
  · intro t wrapped buffer i h
    unfold SinePulseEffect.apply
    have := sinePulseApplyGo_getD (sinePulseFactor 0.075 0.85 t P)
      (fun j =>
        match wrapped with
        | some w => w.getD j Rgb.BLACK
        | none => Rgb.BLACK) 0 i buffer h
    simpa using this

/-- Witness for C6 at period 1: the factor is in bounds at t = 0.3, equals
0.85 at the half-period multiple 3·(1/2), and a concrete one-pixel buffer
with no inner effect blends against black. -/
theorem sine_pulse_factor_bounds_witness :
    ((0.775 : ℝ) ≤ sinePulseFactor 0.075 0.85 0.3 1
        ∧ sinePulseFactor 0.075 0.85 0.3 1 ≤ (0.925 : ℝ))
      ∧ sinePulseFactor 0.075 0.85 (((3 : ℕ) : ℝ) * ((1 : ℝ) / 2)) 1
          = (0.85 : ℝ)
      ∧ (SinePulseEffect.apply 0.075 0.85 2 1 none [⟨1, 0, 0⟩]).getD 0 Rgb.BLACK
          = Rgb.lerp (([⟨1, 0, 0⟩] : List Rgb).getD 0 Rgb.BLACK) Rgb.BLACK
              (sinePulseFactor 0.075 0.85 2 1) := by
  have h := sine_pulse_factor_bounds 1 (by norm_num)
  exact ⟨h.1 0.3, h.2.1 3, h.2.2 2 none [⟨1, 0, 0⟩] 0 (by norm_num)⟩

/-- `Rgb` again, its `f32` channels modelled over ℚ for the executable
render-encoding pipeline (src/render/rgb.rs). -/
structure RgbQ where
  r : ℚ
  g : ℚ
  b : ℚ
deriving DecidableEq, Repr

/-- `ONE` (src/render/mod.rs line 21): the pulse code of a one bit. -/
def ONE : Nat := 2392128

/-- `ZERO` (src/render/mod.rs line 22): the pulse code of a zero bit. -/
def ZERO : Nat := 4227108

/-- One channel of `Rgb::quantize_u8` (src/render/rgb.rs lines 38-44):
`(x * 255.0) as u8`, Rust's saturating float-to-integer cast (clamp to
[0, 255], truncate). -/
def quantize_u8 (x : ℚ) : Nat := (min 255 (max 0 ⌊x * 255⌋)).toNat

/-- The nested `write_u8` loop of `Rgb::write_pulses` (src/render/rgb.rs
lines 52-62): 8 pulses, the mask starting at 0x80 and shifting right each
step. -/
def write_u8_go (value mask : Nat) : Nat → List Nat
  | 0 => []
  | n + 1 =>
    (if value &&& mask != 0 then ONE else ZERO)
      :: write_u8_go value (mask / 2) n

/-- `write_u8` applied to its 8-slot chunk. -/
def write_u8 (value : Nat) : List Nat := write_u8_go value 128 8

/-- `Rgb::write_pulses` (src/render/rgb.rs lines 51-68): quantize the
pixel, then write the green, red and blue bytes into consecutive 8-pulse
chunks, in that order. -/
def RgbQ.write_pulses (c : RgbQ) : List Nat :=
  write_u8 (quantize_u8 c.g) ++ write_u8 (quantize_u8 c.r)
    ++ write_u8 (quantize_u8 c.b)

/-- The gamma-correction map of `write_pulses` (src/render/mod.rs lines
102-107): square each channel. -/
def gammaCorrect (p : RgbQ) : RgbQ := ⟨p.r * p.r, p.g * p.g, p.b * p.b⟩

/-- The color-correction map of `write_pulses` (src/render/mod.rs lines
108-113): multiply channel-wise by the correction color. -/
def colorCorrect (cc p : RgbQ) : RgbQ := ⟨p.r * cc.r, p.g * cc.g, p.b * cc.b⟩

/-- The enumerated write loop of `write_pulses` (src/render/mod.rs lines
116-124): pixel i's pulses land in `pulse_buffer[i*24..(i+1)*24]`, i.e. the
per-pixel chunks are consecutive. -/
def writePixelPulses : List RgbQ → List Nat
  | [] => []
  | p :: rest => RgbQ.write_pulses p ++ writePixelPulses rest

/-- `write_pulses` (src/render/mod.rs lines 99-125): gamma correction, then
color correction, then the per-pixel pulse encoding. -/
def write_pulses (render_buffer : List RgbQ) (color_correction : RgbQ) :
    List Nat :=
  writePixelPulses
    ((render_buffer.map gammaCorrect).map (colorCorrect color_correction))

/-- The renderer's pulse buffer (src/render/mod.rs lines 31-32, 77):
the data symbols written by `write_pulses`, closed by the zero terminator
stored once in the last slot. -/
def pulseBuffer (render_buffer : List RgbQ) (cc : RgbQ) : List Nat :=
  write_pulses render_buffer cc ++ [0]

/-- Specification-side symbol for bit k (most significant first) of a
byte. -/
def bitSymbol (v k : Nat) : Nat := if v.testBit (7 - k) then ONE else ZERO

/-- Specification-side 24-symbol chunk of one (already transformed) pixel:
the green, red and blue bytes in order, each most-significant-bit-first. -/
def pulseChunkSpec (c : RgbQ) : List Nat :=
  ((List.range 8).map (bitSymbol (quantize_u8 c.g)))
    ++ ((List.range 8).map (bitSymbol (quantize_u8 c.r)))
    ++ ((List.range 8).map (bitSymbol (quantize_u8 c.b)))

theorem write_u8_go_length (v m n : Nat) : (write_u8_go v m n).length = n := by
  induction n generalizing m with
  | zero => rfl
  | succ k ih => simp [write_u8_go, ih]

theorem land_two_pow_ne_zero (v j : Nat) :
    (v &&& 2 ^ j != 0) = v.testBit j := by
  rw [Nat.and_two_pow]
  cases h : v.testBit j
  · simp
  · have hpos : (0 : Nat) < 2 ^ j := pow_pos (by norm_num) j
    simp [Nat.pos_iff_ne_zero.mp hpos]

theorem write_u8_go_two_pow (v : Nat) :
    ∀ j : Nat, write_u8_go v (2 ^ j) (j + 1)
      = (List.range (j + 1)).map
          (fun k => if v.testBit (j - k) then ONE else ZERO) := by
  intro j
  induction j with
  | zero =>
    have h0 := land_two_pow_ne_zero v 0
    norm_num at h0
    simp [write_u8_go, h0, List.range_succ]
  | succ j ih =>
    have hmask : 2 ^ (j + 1) / 2 = 2 ^ j := by
      rw [pow_succ]
      exact Nat.mul_div_cancel _ (by norm_num)
    have hstep : write_u8_go v (2 ^ (j + 1)) (j + 1 + 1)
        = (if v &&& 2 ^ (j + 1) != 0 then ONE else ZERO)
          :: write_u8_go v (2 ^ j) (j + 1) := by
      rw [show write_u8_go v (2 ^ (j + 1)) (j + 1 + 1)
          = (if v &&& 2 ^ (j + 1) != 0 then ONE else ZERO)
            :: write_u8_go v (2 ^ (j + 1) / 2) (j + 1) from rfl, hmask]
    rw [hstep, ih, land_two_pow_ne_zero v (j + 1)]
    conv_rhs => rw [List.range_succ_eq_map]
    simp only [List.map_cons, List.map_map, Nat.sub_zero]
    congr 1
    apply List.map_congr_left
    intro k _
    simp [Function.comp, Nat.succ_sub_succ]

theorem write_u8_eq_map (v : Nat) :
    write_u8 v = (List.range 8).map (bitSymbol v) := by
  have h := write_u8_go_two_pow v 7
  norm_num at h
  rw [write_u8, h]
  rfl

theorem write_pulses_length_one (c : RgbQ) : c.write_pulses.length = 24 := by
  simp [RgbQ.write_pulses, write_u8, write_u8_go_length]

theorem writePixelPulses_length (l : List RgbQ) :
    (writePixelPulses l).length = 24 * l.length := by
  induction l with
  | nil => rfl
  | cons c rest ih =>
    simp only [writePixelPulses, List.length_append, write_pulses_length_one,
      ih, List.length_cons]
    ring

theorem writePixelPulses_drop_take (l : List RgbQ) (i : Nat)
    (h : i < l.length) :
    ((writePixelPulses l).drop (24 * i)).take 24
      = RgbQ.write_pulses (l.get ⟨i, h⟩) := by
  induction l generalizing i with
  | nil => simp at h
  | cons c rest ih =>
    cases i with
    | zero =>
      simp only [Nat.mul_zero, List.drop_zero, writePixelPulses]
      rw [List.take_left' (write_pulses_length_one c)]
      rfl
    | succ n =>
      have hn : n < rest.length := by simpa using h
      have hsplit : (writePixelPulses (c :: rest)).drop (24 * (n + 1))
          = (writePixelPulses rest).drop (24 * n) := by
        rw [show writePixelPulses (c :: rest)
            = RgbQ.write_pulses c ++ writePixelPulses rest from rfl,
          show 24 * (n + 1) = (RgbQ.write_pulses c).length + 24 * n from by
            rw [write_pulses_length_one]; ring,
          List.drop_append]
      rw [hsplit, ih n hn]
      rfl

theorem write_pulses_eq_chunkSpec (c : RgbQ) :
    RgbQ.write_pulses c = pulseChunkSpec c := by
  simp [RgbQ.write_pulses, pulseChunkSpec, write_u8_eq_map]

/-- C7: for every frame, the pulse buffer holds exactly 24 symbols per
pixel plus a final zero terminator; pixel i's 24-symbol chunk encodes the
pixel after gamma correction (channel squaring) and channel-wise color
correction, as its green, red and blue channels in that order, each
quantized to 8 bits (always below 256) and serialized most significant bit
first as one of the two fixed waveforms `ONE` and `ZERO` (which differ). -/
theorem render_pulse_encoding (render : List RgbQ) (cc : RgbQ) :
    (pulseBuffer render cc).length = 24 * render.length + 1
      ∧ (pulseBuffer render cc).getLast? = some 0
      ∧ (∀ i, ∀ h : i < render.length,
          ((pulseBuffer render cc).drop (24 * i)).take 24
            = pulseChunkSpec
                (colorCorrect cc (gammaCorrect (render.get ⟨i, h⟩))))
      ∧ (∀ x : ℚ, quantize_u8 x < 256)
      ∧ ONE ≠ ZERO := by
  refine ⟨?_, ?_, ?_, ?_, by decide⟩
  · simp [pulseBuffer, write_pulses, writePixelPulses_length]
  · simp [pulseBuffer]
  · intro i h
    have hlen : (write_pulses render cc).length = 24 * render.length := by
      simp [write_pulses, writePixelPulses_length]
    have hle : 24 * i ≤ (write_pulses render cc).length := by
      rw [hlen]
      omega
    have htk : 24 ≤ ((write_pulses render cc).drop (24 * i)).length := by
      rw [List.length_drop, hlen]
      omega
    rw [pulseBuffer, List.drop_append_of_le_length hle,
      List.take_append_of_le_length htk]
    have hlen2 : i < ((render.map gammaCorrect).map (colorCorrect cc)).length := by
      simpa using h
    have hdt := writePixelPulses_drop_take
      ((render.map gammaCorrect).map (colorCorrect cc)) i hlen2
    rw [show write_pulses render cc
        = writePixelPulses ((render.map gammaCorrect).map (colorCorrect cc))
        from rfl, hdt, write_pulses_eq_chunkSpec]
    congr 1
    simp [List.get_eq_getElem, List.getElem_map]
  · intro x
    simp only [quantize_u8]
    omega

/-- One test pixel for the render-encoding witness. -/
def rgbqSample : RgbQ := ⟨1, 1 / 2, 0⟩

/-- `Rgb::WHITE`, the color correction the renderer passes
(src/render/mod.rs line 77). -/
def rgbqWhite : RgbQ := ⟨1, 1, 1⟩

/-- Witness for C7 on a one-pixel frame: 25 symbols, zero terminator, the
first 24 symbols are the transformed pixel's spec chunk, and quantization
fits 8 bits. -/
theorem render_pulse_encoding_witness :
    (pulseBuffer [rgbqSample] rgbqWhite).length = 24 * 1 + 1
      ∧ (pulseBuffer [rgbqSample] rgbqWhite).getLast? = some 0
      ∧ ((pulseBuffer [rgbqSample] rgbqWhite).drop (24 * 0)).take 24
          = pulseChunkSpec (colorCorrect rgbqWhite (gammaCorrect
              (([rgbqSample] : List RgbQ).get ⟨0, by decide⟩)))
      ∧ quantize_u8 (1 / 2) < 256 := by
  have h := render_pulse_encoding [rgbqSample] rgbqWhite
  exact ⟨h.1, h.2.1, h.2.2.1 0 (by decide), h.2.2.2.1 (1 / 2)⟩
